import Mathlib

/-!
Verification development for `ad_engine.py`: an advertisement decision engine
that enumerates joint assignments of decision variables, queries a Bayesian
network for the posterior of a utility-parent variable, and returns the
assignment maximizing expected utility.

Python dictionaries are modelled as association lists with insertion-order
semantics; Python floats are modelled as exact rationals; a raised exception
is modelled as `none` in an `Option` result.
-/

/-- A Python dict mapping variable names to integer values,
modelled as an insertion-ordered association list. -/
abbrev Dict : Type := List (String × Int)

/-- Lookup of a key in a dict (first matching entry). -/
def dget : Dict → String → Option Int
  | [], _ => none
  | (k', v) :: rest, k => if k' = k then some v else dget rest k

/-- Python dict assignment `d[k] = v`: replaces the value in place when the
key is present, appends a new entry otherwise. -/
def dinsert : Dict → String → Int → Dict
  | [], k, v => [(k, v)]
  | (k', v') :: rest, k, v =>
      if k' = k then (k, v) :: rest else (k', v') :: dinsert rest k v

/-- Python `d1.update(d2)`: assigns every entry of `d2` into `d1` in order. -/
def dupdate (d1 d2 : Dict) : Dict :=
  d2.foldl (fun d p => dinsert d p.1 p.2) d1

/-- Lookup in an association list keyed by integers
(a distribution dict or a utility value table). -/
def zget : List (Int × ℚ) → Int → Option ℚ
  | [], _ => none
  | (k', v) :: rest, k => if k' = k then some v else zget rest k

/-- Lookup in an association list keyed by strings (the utility map). -/
def sget : List (String × List (Int × ℚ)) → String → Option (List (Int × ℚ))
  | [], _ => none
  | (k', v) :: rest, k => if k' = k then some v else sget rest k

/-- `itertools.product`: Cartesian product of a list of candidate-value lists,
leftmost factor most significant (rightmost varies fastest). -/
def prodList : List (List Int) → List (List Int)
  | [] => [[]]
  | d :: rest => d.flatMap (fun x => (prodList rest).map (fun t => x :: t))

/-- `np.unique`: the distinct values of a list in ascending sorted order. -/
def npUnique (l : List Int) : List Int :=
  l.dedup.insertionSort (· ≤ ·)

/-- Spec-side order for comparison: the distinct values of a list in
first-observed order, as the specification's tie-break sentence describes. -/
def firstObserved (l : List Int) : List Int :=
  l.foldl (fun acc x => if x ∈ acc then acc else acc ++ [x]) []

/-- The decision engine: its immutable configuration as built by
`AdEngine.__init__`.  `predictProba` stands for the learned network's
`predict_proba` query: given an evidence dict it returns, for each network
variable in schema order, its posterior distribution as a value-to-probability
dict (the single entry of pomegranate's `parameters` list). -/
structure AdEngine where
  dec_vars : List String
  util_map : List (String × List (Int × ℚ))
  names : List String
  dec_vars_permutations : List (List Int)
  predictProba : Dict → List (List (Int × ℚ))

/-- The `actions` dict built in the decision loop:
`actions[dec_vars[i]] = combo[i]` for each position of the combination. -/
def actionsList (dvs : List String) (combo : List Int) : Dict :=
  (dvs.zip combo).foldl (fun d p => dinsert d p.1 p.2) []

/-- The loop body's local-dict construction, `none` when `dec_vars` is too
short for the combination (an IndexError in the source). -/
def actionsOf (dvs : List String) (combo : List Int) : Option Dict :=
  if combo.length ≤ dvs.length then some (actionsList dvs combo) else none

/-- `total_evidence = actions.copy(); total_evidence.update(evidence)` —
the combined evidence passed to the posterior query. -/
def combinedEvidence (actions evidence : Dict) : Dict :=
  dupdate actions evidence

/-- The inner accumulation
`possible_util += util[val] * util_map[names[util_index]][val]` over every
entry of the posterior distribution dict; `none` models the KeyError raised
when a value has no utility score. -/
def sumUtilStep (um : List (String × List (Int × ℚ))) (name : String)
    (acc : Option ℚ) (vp : Int × ℚ) : Option ℚ :=
  match acc, sget um name with
  | some s, some table =>
      match zget table vp.1 with
      | some score => some (s + vp.2 * score)
      | none => none
  | _, _ => none

/-- See `sumUtilStep`: the whole inner loop, starting from `possible_util = 0`. -/
def sumUtil (um : List (String × List (Int × ℚ))) (name : String)
    (dist : List (Int × ℚ)) : Option ℚ :=
  dist.foldl (sumUtilStep um name) (some 0)

/-- One candidate combination's loop body: build the actions dict, merge with
the evidence, query the posterior of the variable at `utilIndex`, and
accumulate the expected utility; `none` models any exception. -/
def comboUtil (eng : AdEngine) (evidence : Dict) (utilIndex : Nat)
    (combo : List Int) : Option (Dict × ℚ) :=
  match actionsOf eng.dec_vars combo with
  | none => none
  | some acts =>
    match (eng.predictProba (combinedEvidence acts evidence))[utilIndex]? with
    | none => none
    | some dist =>
      match eng.names[utilIndex]? with
      | none => none
      | some name =>
        match sumUtil eng.util_map name dist with
        | none => none
        | some pu => some (acts, pu)

/-- The running-best update: `if possible_util > best_util` replaces the
best combination, starting from `(None, -inf)` (the inner `none`); the outer
`none` propagates an exception. -/
def stepG (g : List Int → Option (Dict × ℚ))
    (acc : Option (Option (Dict × ℚ))) (combo : List Int) :
    Option (Option (Dict × ℚ)) :=
  match acc with
  | none => none
  | some best =>
    match g combo with
    | none => none
    | some p =>
      match best with
      | none => some (some p)
      | some b => if b.2 < p.2 then some (some p) else some (some b)

/-- `AdEngine.decide`: pick the first utility-map key, find its schema index,
enumerate the Cartesian product of the decision variables' candidate domains,
and return the first combination attaining the maximal expected utility.
Result `none` is a raised exception; `some none` is Python's `None` return
(an empty candidate enumeration). -/
def AdEngine.decide (eng : AdEngine) (evidence : Dict) : Option (Option Dict) :=
  match eng.util_map.head? with
  | none => none
  | some fkp =>
    match List.findIdx? (fun n => n = fkp.1) eng.names with
    | none => none
    | some utilIndex =>
      match (prodList eng.dec_vars_permutations).foldl
          (stepG (comboUtil eng evidence utilIndex)) (some none) with
      | none => none
      | some best => some (best.map Prod.fst)

/-- The expected utility of one candidate combination together with its
actions dict, recomputed independently of the decision loop. -/
def euOfCombo (eng : AdEngine) (evidence : Dict) (combo : List Int) :
    Option (Dict × ℚ) :=
  match eng.util_map.head? with
  | none => none
  | some fkp =>
    match List.findIdx? (fun n => n = fkp.1) eng.names with
    | none => none
    | some utilIndex => comboUtil eng evidence utilIndex combo

/-- The expected utility of one candidate combination. -/
def expectedUtility (eng : AdEngine) (evidence : Dict) (combo : List Int) :
    Option ℚ :=
  (euOfCombo eng evidence combo).map Prod.snd

/-- The candidate-domain list comprehension of `AdEngine.__init__`:
`[list(np.unique(self.data[d])) for d in dec_vars]`; `none` models the
KeyError raised when a decision variable is not a column of the data. -/
def permsOf (names : List String) (records : List (List Int)) :
    List String → Option (List (List Int))
  | [] => some []
  | d :: rest =>
    match List.findIdx? (fun n => n = d) names with
    | none => none
    | some j =>
      match permsOf names records rest with
      | none => none
      | some ls => some (npUnique (records.filterMap (fun r => r[j]?)) :: ls)

/-- `AdEngine.__init__` from a dataset given as a header (`names`) and rows
(`records`): stores the configuration and precomputes the candidate domains. -/
def AdEngine.init (names : List String) (records : List (List Int))
    (dec_vars : List String) (util_map : List (String × List (Int × ℚ)))
    (predictProba : Dict → List (List (Int × ℚ))) : Option AdEngine :=
  match permsOf names records dec_vars with
  | none => none
  | some perms => some ⟨dec_vars, util_map, names, perms, predictProba⟩

/-- One iteration of the decision loop with the mutable state threaded
explicitly: the loop body reads `self` and `evidence` and writes only its
locals, so the state components are carried through each step. -/
def decideProcStep (utilIndex : Nat)
    (acc : Option (Option (Dict × ℚ)) × AdEngine × Dict) (combo : List Int) :
    Option (Option (Dict × ℚ)) × AdEngine × Dict :=
  (stepG (comboUtil acc.2.1 acc.2.2 utilIndex) acc.1 combo, acc.2.1, acc.2.2)

/-- `AdEngine.decide` translated in state-passing style: alongside the
returned value it yields the engine object and the caller's evidence dict as
the call leaves them. -/
def AdEngine.decideProc (self : AdEngine) (evidence : Dict) :
    Option (Option Dict) × AdEngine × Dict :=
  match self.util_map.head? with
  | none => (none, self, evidence)
  | some fkp =>
    match List.findIdx? (fun n => n = fkp.1) self.names with
    | none => (none, self, evidence)
    | some utilIndex =>
      match (prodList self.dec_vars_permutations).foldl
          (decideProcStep utilIndex) (some none, self, evidence) with
      | (none, s, e) => (none, s, e)
      | (some best, s, e) => (some (best.map Prod.fst), s, e)

/-!
The network component.  The repository delegates CPT learning and posterior
inference to the external pomegranate library
(`BayesianNetwork.from_structure` / `predict_proba`), whose code is not part
of the repository.
-/

/-- Modelled from the spec: the NetworkModel component (pomegranate's
`BayesianNetwork`, external to this repository).  Variables in schema order
with, for each, its observed finite domain and its parent indices from the
structure specification, plus the training records. -/
structure NetModel where
  names : List String
  domains : List (List Int)
  parents : List (List Nat)
  records : List (List Int)

/-- Modelled from the spec: one conditional-probability-table entry by
maximum-likelihood counting — the fraction of records matching variable `j`'s
value in `a` among the records matching `a` on `j`'s parents. -/
def cptProb (m : NetModel) (j : Nat) (a : List Int) : ℚ :=
  ((m.records.filter (fun r =>
      decide ((∀ k ∈ m.parents[j]?.getD [], r[k]? = a[k]?) ∧
        r[j]? = a[j]?))).length : ℚ) /
  ((m.records.filter (fun r =>
      decide (∀ k ∈ m.parents[j]?.getD [], r[k]? = a[k]?))).length : ℚ)

/-- Modelled from the spec: the joint weight of a full assignment is the
product of its CPT entries across all variables. -/
def jointWeight (m : NetModel) (a : List Int) : ℚ :=
  ((List.range m.names.length).map (fun j => cptProb m j a)).prod

/-- A full assignment is consistent with an evidence dict when every evidence
entry names a schema variable and the assignment takes its value there. -/
def consistentE (m : NetModel) (e : Dict) (a : List Int) : Prop :=
  ∀ p ∈ e, ∃ j, List.findIdx? (fun n => n = p.1) m.names = some j ∧
    a[j]? = some p.2

instance (m : NetModel) (e : Dict) (a : List Int) :
    Decidable (consistentE m e a) := by
  unfold consistentE
  infer_instance

/-- Modelled from the spec: the prior weight of an evidence dict — the sum of
joint weights over all full assignments consistent with it. -/
def queryWeight (m : NetModel) (e : Dict) : ℚ :=
  (((prodList m.domains).filter (fun a => decide (consistentE m e a))).map
    (jointWeight m)).sum

/-- Modelled from the spec: the exact-inference posterior probability that
variable `j` takes value `x` given evidence `e` — enumeration over all full
assignments, normalized by the evidence weight. -/
def posterior (m : NetModel) (e : Dict) (j : Nat) (x : Int) : ℚ :=
  ((((prodList m.domains).filter (fun a => decide (consistentE m e a))).filter
      (fun a => decide (a[j]? = some x))).map (jointWeight m)).sum /
  queryWeight m e

/-- The returned best is attained by some candidate, every earlier candidate
is strictly worse, and no candidate does better. -/
def FirstMax (g : List Int → Option (Dict × ℚ)) (L : List (List Int))
    (b : Dict × ℚ) : Prop :=
  ∃ L1 c L2, L = L1 ++ c :: L2 ∧ g c = some b ∧
    (∀ c' ∈ L1, ∀ p', g c' = some p' → p'.2 < b.2) ∧
    (∀ c' ∈ L, ∀ p', g c' = some p' → p'.2 ≤ b.2)

/-- A one-variable, one-record model used as the posterior witness. -/
def netSimple : NetModel := ⟨["A"], [[0]], [[]], [[0]]⟩

/-!
Concrete engine instances used as counterexamples and witnesses.
-/

/-- A two-candidate engine whose posterior rewards the decision value 1. -/
def engOpt : AdEngine :=
  ⟨["D"], [("S", [(0, 0), (1, 1)])], ["D", "S"], [[0, 1]],
    fun te => if dget te "D" = some 1 then [[(1, 1)], [(1, 1)]]
      else [[(0, 1)], [(0, 1)]]⟩

/-- The posterior oracle of the tie engine: constant, so that every candidate
combination has the same expected utility. -/
def ppTie : Dict → List (List (Int × ℚ)) :=
  fun _ => [[(0, 1)], [(0, 1)]]

/-- The engine built from the dataset whose decision column reads `1, 0`:
first-observed order of the domain is `[1, 0]`, while `np.unique` stores the
ascending `[0, 1]`; its constant posterior makes all candidates tie. -/
def engTie : AdEngine :=
  ⟨["D"], [("S", [(0, 1)])], ["D", "S"], [[0, 1]], ppTie⟩

/-- An engine with an empty decision-variable list. -/
def engNoDec : AdEngine :=
  ⟨[], [("S", [(0, 1)])], ["S"], [], fun _ => [[(0, 1)]]⟩

/-- An engine whose utility table omits value 1 of the utility parent,
which the posterior assigns probability one half. -/
def engMissing : AdEngine :=
  ⟨["D"], [("S", [(0, 5)])], ["D", "S"], [[0]],
    fun _ => [[(0, 1)], [(0, (1 : ℚ)/2), (1, (1 : ℚ)/2)]]⟩

/-- `engMissing` with the omitted value mapped to score 0, as the
contribute-0 reading of the specification would have it. -/
def engMissingZero : AdEngine :=
  ⟨["D"], [("S", [(0, 5), (1, 0)])], ["D", "S"], [[0]],
    fun _ => [[(0, 1)], [(0, (1 : ℚ)/2), (1, (1 : ℚ)/2)]]⟩

/-- An engine whose utility table holds an entry for value 99, a value
outside the utility parent's learned domain. -/
def engExtra : AdEngine :=
  ⟨["D"], [("S", [(0, 1), (99, 1000)])], ["D", "S"], [[0, 1]], ppTie⟩


/-!
Dictionary lemmas: merged-evidence precedence.
-/

theorem dget_dinsert_self (d : Dict) (k : String) (v : Int) :
    dget (dinsert d k v) k = some v := by
  induction d with
  | nil => simp [dinsert, dget]
  | cons p rest ih =>
    obtain ⟨k', v'⟩ := p
    by_cases h : k' = k
    · simp [dinsert, h, dget]
    · simp [dinsert, h, dget, ih]

theorem dget_dinsert_ne (d : Dict) (k k' : String) (v : Int) (h : k' ≠ k) :
    dget (dinsert d k' v) k = dget d k := by
  induction d with
  | nil => simp [dinsert, dget, h]
  | cons p rest ih =>
    obtain ⟨k'', v''⟩ := p
    by_cases h2 : k'' = k'
    · simp [dinsert, h2, dget, h]
    · simp [dinsert, h2, dget, ih]

theorem dget_foldl_dinsert_notmem (e : List (String × Int)) :
    ∀ (d : Dict) (k : String), k ∉ List.map Prod.fst e →
    dget (e.foldl (fun d p => dinsert d p.1 p.2) d) k = dget d k := by
  induction e with
  | nil => intro d k _; rfl
  | cons p rest ih =>
    intro d k h
    simp only [List.map, List.mem_cons, not_or] at h
    rw [List.foldl_cons, ih _ k h.2, dget_dinsert_ne _ _ _ _ (fun hc => h.1 hc.symm)]

theorem dget_dupdate_of_mem (e : List (String × Int)) :
    ∀ (acts : Dict) (k : String) (v : Int),
    (List.map Prod.fst e).Nodup → dget e k = some v →
    dget (dupdate acts e) k = some v := by
  induction e with
  | nil => intro acts k v _ hv; simp [dget] at hv
  | cons p rest ih =>
    intro acts k v hnd hv
    obtain ⟨k', v'⟩ := p
    simp only [List.map, List.nodup_cons] at hnd
    unfold dupdate
    rw [List.foldl_cons]
    by_cases h : k' = k
    · subst h
      simp [dget] at hv
      subst hv
      rw [dget_foldl_dinsert_notmem rest _ _ hnd.1]
      exact dget_dinsert_self acts k' v'
    · simp only [dget, if_neg h] at hv
      exact ih (dinsert acts k' v') k v hnd.2 hv

/-- C1, counterexample: with candidate assignment `{Ad1: 0}` and evidence
`{Ad1: 7}`, the combined evidence built by `decide` holds the evidence's
value 7 at the shared key, not the candidate's value 0. -/
theorem evidence_overrides_decision_value_cex :
    dget (combinedEvidence (actionsList ["Ad1"] [0]) [("Ad1", 7)]) "Ad1"
      = some 7 ∧
    dget (actionsList ["Ad1"] [0]) "Ad1" = some 0 ∧ (7 : Int) ≠ 0 := by
  decide

/-- C1 (amended): when an evidence mapping with distinct keys and a candidate
decision assignment share a key, the combined evidence passed to the
network's posterior query contains the evidence's value for that key
(`total_evidence.update(evidence)` lets the evidence overwrite the
candidate assignment). -/
theorem combined_evidence_prefers_evidence (acts e : Dict) (k : String)
    (v : Int) (hnd : (List.map Prod.fst e).Nodup) (hv : dget e k = some v) :
    dget (combinedEvidence acts e) k = some v :=
  dget_dupdate_of_mem e acts k v hnd hv

/-- C1 (amended), witness at concrete inputs. -/
theorem combined_evidence_prefers_evidence_witness :
    dget (combinedEvidence (actionsList ["Ad1"] [0]) [("Ad1", 7)]) "Ad1"
      = some 7 :=
  combined_evidence_prefers_evidence (actionsList ["Ad1"] [0]) [("Ad1", 7)]
    "Ad1" 7 (by decide) (by decide)

/-!
Decision-loop lemmas.
-/

theorem foldl_stepG_none (g : List Int → Option (Dict × ℚ)) :
    ∀ L : List (List Int), L.foldl (stepG g) none = none := by
  intro L
  induction L with
  | nil => rfl
  | cons c L ih => rw [List.foldl_cons]; exact ih

theorem foldl_stepG_err (g : List Int → Option (Dict × ℚ)) :
    ∀ (L : List (List Int)) (acc), (∃ c ∈ L, g c = none) →
    L.foldl (stepG g) acc = none := by
  intro L
  induction L with
  | nil => intro acc h; obtain ⟨c, hc, _⟩ := h; cases hc
  | cons d L ih =>
    intro acc h
    obtain ⟨c, hc, hg⟩ := h
    rw [List.foldl_cons]
    rcases List.mem_cons.1 hc with h1 | h1
    · subst h1
      cases acc with
      | none => exact foldl_stepG_none g L
      | some b =>
        show L.foldl (stepG g) (stepG g (some b) c) = none
        simp only [stepG, hg]
        exact foldl_stepG_none g L
    · exact ih _ ⟨c, h1, hg⟩

theorem foldl_stepG_go (g : List Int → Option (Dict × ℚ)) :
    ∀ (L : List (List Int)) (b0 b : Dict × ℚ),
    L.foldl (stepG g) (some (some b0)) = some (some b) →
    (b = b0 ∧ ∀ c' ∈ L, ∀ p', g c' = some p' → p'.2 ≤ b0.2) ∨
    (b0.2 < b.2 ∧ FirstMax g L b) := by
  intro L
  induction L with
  | nil =>
    intro b0 b h
    simp only [List.foldl_nil, Option.some.injEq] at h
    left
    refine ⟨h.symm, ?_⟩
    intro c' hc'
    cases hc'
  | cons c L ih =>
    intro b0 b h
    rw [List.foldl_cons] at h
    cases hg : g c with
    | none =>
      rw [show stepG g (some (some b0)) c = none by simp [stepG, hg]] at h
      rw [foldl_stepG_none] at h
      cases h
    | some p =>
      by_cases hlt : b0.2 < p.2
      · rw [show stepG g (some (some b0)) c = some (some p) by
          simp [stepG, hg, hlt]] at h
        rcases ih p b h with ⟨hb, hle⟩ | ⟨hlt2, L1, c1, L2, hsp, hg1, hstrict, hall⟩
        · subst hb
          right
          refine ⟨hlt, [], c, L, rfl, hg, ?_, ?_⟩
          · intro c' hc'; cases hc'
          · intro c' hc' p' hp'
            rcases List.mem_cons.1 hc' with h1 | h1
            · subst h1; rw [hg] at hp'; cases hp'; exact le_refl _
            · exact hle c' h1 p' hp'
        · right
          refine ⟨lt_trans hlt hlt2, c :: L1, c1, L2, by rw [hsp, List.cons_append], hg1, ?_, ?_⟩
          · intro c' hc' p' hp'
            rcases List.mem_cons.1 hc' with h1 | h1
            · subst h1; rw [hg] at hp'; cases hp'; exact hlt2
            · exact hstrict c' h1 p' hp'
          · intro c' hc' p' hp'
            rcases List.mem_cons.1 hc' with h1 | h1
            · subst h1; rw [hg] at hp'; cases hp'; exact le_of_lt hlt2
            · exact hall c' h1 p' hp'
      · rw [show stepG g (some (some b0)) c = some (some b0) by
          simp [stepG, hg, hlt]] at h
        rcases ih b0 b h with ⟨hb, hle⟩ | ⟨hlt2, L1, c1, L2, hsp, hg1, hstrict, hall⟩
        · left
          refine ⟨hb, ?_⟩
          intro c' hc' p' hp'
          rcases List.mem_cons.1 hc' with h1 | h1
          · subst h1; rw [hg] at hp'; cases hp'; exact le_of_not_lt hlt
          · exact hle c' h1 p' hp'
        · right
          refine ⟨hlt2, c :: L1, c1, L2, by rw [hsp, List.cons_append], hg1, ?_, ?_⟩
          · intro c' hc' p' hp'
            rcases List.mem_cons.1 hc' with h1 | h1
            · subst h1; rw [hg] at hp'; cases hp'
              exact lt_of_le_of_lt (le_of_not_lt hlt) hlt2
            · exact hstrict c' h1 p' hp'
          · intro c' hc' p' hp'
            rcases List.mem_cons.1 hc' with h1 | h1
            · subst h1; rw [hg] at hp'; cases hp'
              exact le_of_lt (lt_of_le_of_lt (le_of_not_lt hlt) hlt2)
            · exact hall c' h1 p' hp'

theorem foldl_stepG_first (g : List Int → Option (Dict × ℚ))
    (L : List (List Int)) (b : Dict × ℚ)
    (h : L.foldl (stepG g) (some none) = some (some b)) : FirstMax g L b := by
  cases L with
  | nil => simp only [List.foldl_nil] at h; cases h
  | cons c L =>
    rw [List.foldl_cons] at h
    cases hg : g c with
    | none =>
      rw [show stepG g (some none) c = none by simp [stepG, hg]] at h
      rw [foldl_stepG_none] at h
      cases h
    | some p =>
      rw [show stepG g (some none) c = some (some p) by simp [stepG, hg]] at h
      rcases foldl_stepG_go g L p b h with ⟨hb, hle⟩ |
        ⟨hlt2, L1, c1, L2, hsp, hg1, hstrict, hall⟩
      · subst hb
        refine ⟨[], c, L, rfl, hg, ?_, ?_⟩
        · intro c' hc'; cases hc'
        · intro c' hc' p' hp'
          rcases List.mem_cons.1 hc' with h1 | h1
          · subst h1; rw [hg] at hp'; cases hp'; exact le_refl _
          · exact hle c' h1 p' hp'
      · refine ⟨c :: L1, c1, L2, by rw [hsp, List.cons_append], hg1, ?_, ?_⟩
        · intro c' hc' p' hp'
          rcases List.mem_cons.1 hc' with h1 | h1
          · subst h1; rw [hg] at hp'; cases hp'; exact hlt2
          · exact hstrict c' h1 p' hp'
        · intro c' hc' p' hp'
          rcases List.mem_cons.1 hc' with h1 | h1
          · subst h1; rw [hg] at hp'; cases hp'; exact le_of_lt hlt2
          · exact hall c' h1 p' hp'

theorem findIdx?_getElem (p : String → Bool) :
    ∀ (l : List String) (i : Nat), List.findIdx? p l = some i →
    ∃ a, l[i]? = some a ∧ p a = true := by
  intro l
  induction l with
  | nil => intro i h; simp [List.findIdx?] at h
  | cons a l ih =>
    intro i h
    rw [List.findIdx?_cons] at h
    by_cases hp : p a
    · rw [if_pos hp] at h
      cases h
      exact ⟨a, by simp, hp⟩
    · rw [if_neg hp, List.findIdx?_succ] at h
      simp only [Option.map_eq_some'] at h
      obtain ⟨i', hi', hj⟩ := h
      cases i with
      | zero => omega
      | succ j =>
        obtain ⟨b, hb, hpb⟩ := ih i' hi'
        refine ⟨b, ?_, hpb⟩
        rw [show j + 1 = i' + 1 by omega]
        simpa using hb

/-- C2: for every evidence mapping, when `decide` (with a non-empty
decision-variable list) returns an assignment, that assignment arises from a
candidate combination whose expected utility — posterior probability times
utility score, summed over the utility parent's distribution — is at least
the expected utility of every combination in the enumerated Cartesian
product of the decision variables' candidate domains. -/
theorem decide_returns_max_expected_utility (eng : AdEngine) (e : Dict)
    (d : Dict) (hdv : eng.dec_vars ≠ [])
    (h : eng.decide e = some (some d)) :
    ∃ c ∈ prodList eng.dec_vars_permutations, ∃ q,
      euOfCombo eng e c = some (d, q) ∧
      ∀ c' ∈ prodList eng.dec_vars_permutations, ∀ q',
        expectedUtility eng e c' = some q' → q' ≤ q := by
  unfold AdEngine.decide at h
  cases hh : eng.util_map.head? with
  | none => simp [hh] at h
  | some fkp =>
    simp only [hh] at h
    cases hfi : List.findIdx? (fun n => n = fkp.1) eng.names with
    | none => simp [hfi] at h
    | some ui =>
      simp only [hfi] at h
      cases hfold : (prodList eng.dec_vars_permutations).foldl
          (stepG (comboUtil eng e ui)) (some none) with
      | none => simp [hfold] at h
      | some best =>
        simp only [hfold] at h
        cases best with
        | none => simp at h
        | some b =>
          simp only [Option.map_some', Option.some.injEq] at h
          obtain ⟨L1, c, L2, hsp, hgc, _, hall⟩ :=
            foldl_stepG_first _ _ _ hfold
          refine ⟨c, ?_, b.2, ?_, ?_⟩
          · rw [hsp]
            exact List.mem_append.2 (Or.inr (List.mem_cons_self _ _))
          · simp only [euOfCombo, hh, hfi, hgc]
            rw [← h]
          · intro c' hc' q' hq'
            simp only [expectedUtility, euOfCombo, hh, hfi] at hq'
            rcases hp' : comboUtil eng e ui c' with _ | p'
            · rw [hp'] at hq'; cases hq'
            · rw [hp'] at hq'
              simp only [Option.map_some', Option.some.injEq] at hq'
              rw [← hq']
              exact hall c' hc' p' hp'

/-- C2, witness at a concrete engine: `engOpt.decide` returns `{D: 1}`
and its expected utility bounds both candidates'. -/
theorem decide_returns_max_expected_utility_witness :
    ∃ c ∈ prodList engOpt.dec_vars_permutations, ∃ q,
      euOfCombo engOpt [] c = some ([("D", 1)], q) ∧
      ∀ c' ∈ prodList engOpt.dec_vars_permutations, ∀ q',
        expectedUtility engOpt [] c' = some q' → q' ≤ q :=
  decide_returns_max_expected_utility engOpt [] [("D", 1)] (by decide)
    (by simp [AdEngine.decide, engOpt, comboUtil, combinedEvidence, dupdate,
      actionsOf, actionsList, dinsert, dget, sumUtil, sumUtilStep, sget, zget, stepG,
      prodList, List.findIdx?, List.foldl, List.zip, List.zipWith,
      List.flatMap])

theorem npUnique_sorted (l : List Int) : List.Sorted (· ≤ ·) (npUnique l) :=
  List.sorted_insertionSort _ _

theorem permsOf_mem (names : List String) (records : List (List Int)) :
    ∀ (dvs : List String) (perms : List (List Int)),
    permsOf names records dvs = some perms →
    ∀ l ∈ perms, ∃ j : Nat,
      l = npUnique (records.filterMap (fun r => r[j]?)) := by
  intro dvs
  induction dvs with
  | nil =>
    intro perms h l hl
    simp only [permsOf, Option.some.injEq] at h
    subst h
    cases hl
  | cons d rest ih =>
    intro perms h l hl
    unfold permsOf at h
    cases hfi : List.findIdx? (fun n => n = d) names with
    | none => simp [hfi] at h
    | some j =>
      simp only [hfi] at h
      cases hp : permsOf names records rest with
      | none => simp [hp] at h
      | some ls =>
        simp only [hp, Option.some.injEq] at h
        subst h
        rcases List.mem_cons.1 hl with h1 | h1
        · exact ⟨j, h1⟩
        · exact ih ls hp l h1

/-- C3, counterexample: on the dataset whose decision column reads `1, 0`
(first-observed order `[1, 0]`), with all candidates tied, `decide` returns
`{D: 0}` — the first candidate in ascending `np.unique` order — not the
claim's first candidate `{D: 1}` under first-observed order. -/
theorem decide_tiebreak_not_first_observed_cex :
    AdEngine.init ["D", "S"] [[1, 0], [0, 0]] ["D"] [("S", [(0, 1)])] ppTie
      = some engTie ∧
    engTie.decide [] = some (some [("D", 0)]) ∧
    expectedUtility engTie [] [0] = expectedUtility engTie [] [1] ∧
    firstObserved [1, 0] = [1, 0] ∧
    prodList [firstObserved [1, 0]] = [[1], [0]] ∧
    actionsList ["D"] [1] = [("D", 1)] ∧
    ([("D", 0)] : Dict) ≠ [("D", 1)] :=
  ⟨rfl,
   by simp [AdEngine.decide, engTie, ppTie, comboUtil, combinedEvidence,
     dupdate, actionsOf, actionsList, dinsert, sumUtil, sumUtilStep, sget, zget, stepG,
     prodList, List.findIdx?, List.foldl, List.zip, List.zipWith,
     List.flatMap],
   rfl, by decide, by decide, by decide, by decide⟩

/-- C3 (amended): when `decide` returns an assignment on an engine built by
the constructor, ties are broken by enumeration order — the Cartesian
product in declared decision-variable order with each variable's candidate
domain in ascending sorted order (`np.unique` sorts) — the returned
assignment's candidate strictly beats every earlier candidate and is at
least every candidate. -/
theorem decide_tiebreak_first_in_sorted_order (names : List String)
    (records : List (List Int)) (dvs : List String)
    (um : List (String × List (Int × ℚ))) (pp : Dict → List (List (Int × ℚ)))
    (eng : AdEngine) (e d : Dict)
    (hinit : AdEngine.init names records dvs um pp = some eng)
    (h : eng.decide e = some (some d)) :
    (∀ l ∈ eng.dec_vars_permutations, List.Sorted (· ≤ ·) l) ∧
    ∃ L1 c L2, prodList eng.dec_vars_permutations = L1 ++ c :: L2 ∧
      ∃ q, euOfCombo eng e c = some (d, q) ∧
        (∀ c' ∈ L1, ∀ q', expectedUtility eng e c' = some q' → q' < q) ∧
        (∀ c' ∈ prodList eng.dec_vars_permutations, ∀ q',
          expectedUtility eng e c' = some q' → q' ≤ q) := by
  constructor
  · intro l hl
    unfold AdEngine.init at hinit
    cases hperm : permsOf names records dvs with
    | none => simp [hperm] at hinit
    | some perms =>
      simp only [hperm, Option.some.injEq] at hinit
      obtain ⟨j, hj⟩ := permsOf_mem names records dvs perms hperm l
        (by rw [← hinit] at hl; exact hl)
      rw [hj]
      exact npUnique_sorted _
  · unfold AdEngine.decide at h
    cases hh : eng.util_map.head? with
    | none => simp [hh] at h
    | some fkp =>
      simp only [hh] at h
      cases hfi : List.findIdx? (fun n => n = fkp.1) eng.names with
      | none => simp [hfi] at h
      | some ui =>
        simp only [hfi] at h
        cases hfold : (prodList eng.dec_vars_permutations).foldl
            (stepG (comboUtil eng e ui)) (some none) with
        | none => simp [hfold] at h
        | some best =>
          simp only [hfold] at h
          cases best with
          | none => simp at h
          | some b =>
            simp only [Option.map_some', Option.some.injEq] at h
            obtain ⟨L1, c, L2, hsp, hgc, hstrict, hall⟩ :=
              foldl_stepG_first _ _ _ hfold
            refine ⟨L1, c, L2, hsp, b.2, ?_, ?_, ?_⟩
            · simp only [euOfCombo, hh, hfi, hgc]
              rw [← h]
            · intro c' hc' q' hq'
              simp only [expectedUtility, euOfCombo, hh, hfi] at hq'
              rcases hp' : comboUtil eng e ui c' with _ | p'
              · rw [hp'] at hq'; cases hq'
              · rw [hp'] at hq'
                simp only [Option.map_some', Option.some.injEq] at hq'
                rw [← hq']
                exact hstrict c' hc' p' hp'
            · intro c' hc' q' hq'
              simp only [expectedUtility, euOfCombo, hh, hfi] at hq'
              rcases hp' : comboUtil eng e ui c' with _ | p'
              · rw [hp'] at hq'; cases hq'
              · rw [hp'] at hq'
                simp only [Option.map_some', Option.some.injEq] at hq'
                rw [← hq']
                exact hall c' hc' p' hp'

/-- C3 (amended), witness: the tie engine built by the constructor returns
the first candidate of the sorted enumeration. -/
theorem decide_tiebreak_first_in_sorted_order_witness :
    (∀ l ∈ engTie.dec_vars_permutations, List.Sorted (· ≤ ·) l) ∧
    ∃ L1 c L2, prodList engTie.dec_vars_permutations = L1 ++ c :: L2 ∧
      ∃ q, euOfCombo engTie [] c = some ([("D", 0)], q) ∧
        (∀ c' ∈ L1, ∀ q', expectedUtility engTie [] c' = some q' → q' < q) ∧
        (∀ c' ∈ prodList engTie.dec_vars_permutations, ∀ q',
          expectedUtility engTie [] c' = some q' → q' ≤ q) :=
  decide_tiebreak_first_in_sorted_order ["D", "S"] [[1, 0], [0, 0]] ["D"]
    [("S", [(0, 1)])] ppTie engTie [] [("D", 0)] rfl
    (by simp [AdEngine.decide, engTie, ppTie, comboUtil, combinedEvidence,
      dupdate, actionsOf, actionsList, dinsert, sumUtil, sumUtilStep, sget, zget, stepG,
      prodList, List.findIdx?, List.foldl, List.zip, List.zipWith,
      List.flatMap])

theorem actionsOf_eq_some (dvs : List String) (combo : List Int) (acts : Dict)
    (h : actionsOf dvs combo = some acts) : acts = actionsList dvs combo := by
  unfold actionsOf at h
  by_cases hl : combo.length ≤ dvs.length
  · rw [if_pos hl] at h
    cases h
    rfl
  · rw [if_neg hl] at h
    cases h

theorem comboUtil_fst (eng : AdEngine) (e : Dict) (ui : Nat) (combo : List Int)
    (p : Dict × ℚ) (h : comboUtil eng e ui combo = some p) :
    p.1 = actionsList eng.dec_vars combo := by
  unfold comboUtil at h
  cases ha : actionsOf eng.dec_vars combo with
  | none => rw [ha] at h; cases h
  | some acts =>
    rw [ha] at h
    simp only at h
    cases hd : (eng.predictProba (combinedEvidence acts e))[ui]? with
    | none => rw [hd] at h; cases h
    | some dist =>
      rw [hd] at h
      simp only at h
      cases hn : eng.names[ui]? with
      | none => rw [hn] at h; cases h
      | some name =>
        rw [hn] at h
        simp only at h
        cases hs : sumUtil eng.util_map name dist with
        | none => rw [hs] at h; cases h
        | some pu =>
          rw [hs] at h
          simp only [Option.some.injEq] at h
          rw [← h]
          exact actionsOf_eq_some _ _ _ ha

theorem euOfCombo_fst (eng : AdEngine) (e : Dict) (combo : List Int)
    (p : Dict × ℚ) (h : euOfCombo eng e combo = some p) :
    p.1 = actionsList eng.dec_vars combo := by
  unfold euOfCombo at h
  cases hh : eng.util_map.head? with
  | none => rw [hh] at h; cases h
  | some fkp =>
    rw [hh] at h
    simp only at h
    cases hfi : List.findIdx? (fun n => n = fkp.1) eng.names with
    | none => rw [hfi] at h; cases h
    | some ui =>
      rw [hfi] at h
      exact comboUtil_fst eng e ui combo p h

theorem decide_of_perms_nil (eng : AdEngine) (e : Dict) (p : Dict × ℚ)
    (hperm : eng.dec_vars_permutations = [])
    (hcu : euOfCombo eng e [] = some p) :
    eng.decide e = some (some p.1) := by
  unfold euOfCombo at hcu
  unfold AdEngine.decide
  cases hh : eng.util_map.head? with
  | none => rw [hh] at hcu; cases hcu
  | some fkp =>
    rw [hh] at hcu
    simp only [hh] at hcu ⊢
    cases hfi : List.findIdx? (fun n => n = fkp.1) eng.names with
    | none => rw [hfi] at hcu; cases hcu
    | some ui =>
      rw [hfi] at hcu
      simp only [hfi] at hcu ⊢
      rw [hperm]
      show (match ([[]] : List (List Int)).foldl
        (stepG (comboUtil eng e ui)) (some none) with
        | none => none
        | some best => some (best.map Prod.fst)) = some (some p.1)
      rw [List.foldl_cons, List.foldl_nil]
      rw [show stepG (comboUtil eng e ui) (some none) [] = some (some p) by
        simp [stepG, hcu]]
      rfl

/-- C4, counterexample: an engine with an empty decision-variable list does
not fail at `decide` time — there is no NoDecisionVariablesError in the
code — it returns the empty assignment built from the single empty
combination of `itertools.product()`. -/
theorem decide_empty_dec_vars_cex :
    engNoDec.dec_vars = [] ∧ engNoDec.decide [] = some (some []) := by
  decide

/-- C4 (amended): for an engine constructed with an empty decision-variable
list, `decide(e)` returns the empty assignment (rather than failing with an
error), whenever the single empty combination's utility computation
succeeds. -/
theorem decide_empty_dec_vars_returns_empty (names : List String)
    (records : List (List Int)) (um : List (String × List (Int × ℚ)))
    (pp : Dict → List (List (Int × ℚ))) (eng : AdEngine) (e : Dict)
    (p : Dict × ℚ)
    (hinit : AdEngine.init names records [] um pp = some eng)
    (hcu : euOfCombo eng e [] = some p) :
    eng.decide e = some (some []) := by
  unfold AdEngine.init at hinit
  simp only [permsOf, Option.some.injEq] at hinit
  have hperm : eng.dec_vars_permutations = [] := by rw [← hinit]
  have hdvs : eng.dec_vars = [] := by rw [← hinit]
  rw [decide_of_perms_nil eng e p hperm hcu, euOfCombo_fst eng e [] p hcu,
    hdvs]
  rfl

/-- C4 (amended), witness at the concrete empty-decision engine. -/
theorem decide_empty_dec_vars_returns_empty_witness :
    engNoDec.decide [] = some (some []) :=
  decide_empty_dec_vars_returns_empty ["S"] [[0]] [("S", [(0, 1)])]
    engNoDec.predictProba engNoDec [] ([], 1) rfl
    (by simp [euOfCombo, engNoDec, comboUtil, combinedEvidence, dupdate,
      actionsOf, actionsList, dinsert, sumUtil, sumUtilStep, sget, zget,
      List.findIdx?, List.foldl, List.zip, List.zipWith])

theorem foldl_sumUtilStep_none (um : List (String × List (Int × ℚ)))
    (name : String) :
    ∀ dist : List (Int × ℚ), dist.foldl (sumUtilStep um name) none = none := by
  intro dist
  induction dist with
  | nil => rfl
  | cons vp rest ih => rw [List.foldl_cons]; exact ih

theorem foldl_sumUtilStep_missing (um : List (String × List (Int × ℚ)))
    (name : String) (table : List (Int × ℚ)) (v : Int)
    (hs : sget um name = some table) (hm : zget table v = none) :
    ∀ (dist : List (Int × ℚ)) (acc : Option ℚ), v ∈ List.map Prod.fst dist →
    dist.foldl (sumUtilStep um name) acc = none := by
  intro dist
  induction dist with
  | nil => intro acc hv; cases hv
  | cons vp rest ih =>
    intro acc hv
    rw [List.foldl_cons]
    rw [List.map_cons] at hv
    rcases List.mem_cons.1 hv with h1 | h1
    · cases acc with
      | none => exact foldl_sumUtilStep_none um name rest
      | some s =>
        rw [show sumUtilStep um name (some s) vp = none by
          simp only [sumUtilStep, hs]
          rw [← h1, hm]]
        exact foldl_sumUtilStep_none um name rest
    · exact ih _ h1

theorem sumUtil_missing_none (um : List (String × List (Int × ℚ)))
    (name : String) (table : List (Int × ℚ)) (v : Int)
    (dist : List (Int × ℚ)) (hs : sget um name = some table)
    (hm : zget table v = none) (hv : v ∈ List.map Prod.fst dist) :
    sumUtil um name dist = none :=
  foldl_sumUtilStep_missing um name table v hs hm dist (some 0) hv

theorem comboUtil_none_of_missing (eng : AdEngine) (e : Dict) (ui : Nat)
    (combo : List Int) (dist : List (Int × ℚ)) (name : String)
    (table : List (Int × ℚ)) (v : Int)
    (hlen : combo.length ≤ eng.dec_vars.length)
    (hd : (eng.predictProba
      (combinedEvidence (actionsList eng.dec_vars combo) e))[ui]? = some dist)
    (hn : eng.names[ui]? = some name)
    (hs : sget eng.util_map name = some table)
    (hm : zget table v = none) (hv : v ∈ List.map Prod.fst dist) :
    comboUtil eng e ui combo = none := by
  unfold comboUtil
  rw [show actionsOf eng.dec_vars combo = some (actionsList eng.dec_vars combo)
    from by unfold actionsOf; rw [if_pos hlen]]
  simp only [hd, hn, sumUtil_missing_none eng.util_map name table v dist hs hm hv]

/-- C5, counterexample: when the posterior distribution of the utility
parent carries a value absent from the utility table, `decide` raises (a
KeyError, modelled as `none`) instead of contributing 0 utility; the same
engine with the missing value scored 0 succeeds. -/
theorem decide_missing_utility_value_raises_cex :
    engMissing.decide [] = none ∧
    engMissingZero.decide [] = some (some [("D", 0)]) := by
  decide

/-- C5 (amended): for every utility table that omits a value appearing in
the utility parent's posterior distribution for some enumerated candidate,
`decide` fails (the KeyError `util_map[...][val]` propagates, modelled as
`none`); it does not contribute 0 for the missing value. -/
theorem decide_fails_on_missing_utility_value (eng : AdEngine) (e : Dict)
    (fk : String) (table : List (Int × ℚ)) (ui : Nat) (c : List Int)
    (dist : List (Int × ℚ)) (v : Int)
    (hhead : eng.util_map.head? = some (fk, table))
    (hidx : List.findIdx? (fun n => n = fk) eng.names = some ui)
    (hc : c ∈ prodList eng.dec_vars_permutations)
    (hlen : c.length ≤ eng.dec_vars.length)
    (hdist : (eng.predictProba
      (combinedEvidence (actionsList eng.dec_vars c) e))[ui]? = some dist)
    (hv : v ∈ List.map Prod.fst dist)
    (hmiss : zget table v = none) :
    eng.decide e = none := by
  obtain ⟨a, ha, hpa⟩ := findIdx?_getElem _ _ _ hidx
  have ha' : eng.names[ui]? = some fk := by
    rw [ha, of_decide_eq_true hpa]
  have hs : sget eng.util_map fk = some table := by
    cases hum : eng.util_map with
    | nil => rw [hum] at hhead; cases hhead
    | cons q rest =>
      rw [hum] at hhead
      rw [List.head?_cons, Option.some.injEq] at hhead
      rw [hhead]
      simp [sget]
  have hcu : comboUtil eng e ui c = none :=
    comboUtil_none_of_missing eng e ui c dist fk table v hlen hdist ha' hs
      hmiss hv
  unfold AdEngine.decide
  simp only [hhead, hidx]
  rw [foldl_stepG_err _ _ _ ⟨c, hc, hcu⟩]

/-- C5 (amended), witness at the concrete engine with a missing value. -/
theorem decide_fails_on_missing_utility_value_witness :
    engMissing.decide [] = none :=
  decide_fails_on_missing_utility_value engMissing [] "S" [(0, 5)] 1 [0]
    [(0, (1 : ℚ)/2), (1, (1 : ℚ)/2)] 1 rfl (by decide) (by decide) (by decide)
    rfl (by decide) rfl

/-- C7: `decide` has no hidden randomness — two engines with identical
configuration (decision variables, utility map, schema, candidate domains,
and network query) return the identical assignment on the same evidence. -/
theorem decide_deterministic (e1 e2 : AdEngine) (ev : Dict)
    (h1 : e1.dec_vars = e2.dec_vars) (h2 : e1.util_map = e2.util_map)
    (h3 : e1.names = e2.names)
    (h4 : e1.dec_vars_permutations = e2.dec_vars_permutations)
    (h5 : e1.predictProba = e2.predictProba) :
    e1.decide ev = e2.decide ev := by
  cases e1
  cases e2
  simp only at h1 h2 h3 h4 h5
  subst h1
  subst h2
  subst h3
  subst h4
  subst h5
  rfl

/-- C7, witness: the same concrete engine queried twice. -/
theorem decide_deterministic_witness :
    engTie.decide [] = engTie.decide [] :=
  decide_deterministic engTie engTie [] rfl rfl rfl rfl rfl

theorem foldl_decideProcStep (ui : Nat) :
    ∀ (L : List (List Int)) (b : Option (Option (Dict × ℚ)))
      (s : AdEngine) (ev : Dict),
    L.foldl (decideProcStep ui) (b, s, ev) =
      (L.foldl (stepG (comboUtil s ev ui)) b, s, ev) := by
  intro L
  induction L with
  | nil => intro b s ev; rfl
  | cons c L ih =>
    intro b s ev
    rw [List.foldl_cons, List.foldl_cons]
    exact ih _ _ _

/-- C9: `decide` is pure — translated in state-passing style, a call leaves
the engine's configuration and the caller's evidence dict unchanged, and its
value is the pure function of (configuration, evidence). -/
theorem decideProc_pure (eng : AdEngine) (ev : Dict) :
    eng.decideProc ev = (eng.decide ev, eng, ev) := by
  unfold AdEngine.decideProc AdEngine.decide
  cases hh : eng.util_map.head? with
  | none => rfl
  | some fkp =>
    cases hfi : List.findIdx? (fun n => n = fkp.1) eng.names with
    | none => simp only [hfi]
    | some ui =>
      simp only [hfi]
      rw [foldl_decideProcStep ui]
      cases hfold : (prodList eng.dec_vars_permutations).foldl
          (stepG (comboUtil eng ev ui)) (some none) with
      | none => rfl
      | some best => rfl

theorem foldl_stepG_congr (g g' : List Int → Option (Dict × ℚ)) :
    ∀ (L : List (List Int)) (acc), (∀ c ∈ L, g c = g' c) →
    L.foldl (stepG g) acc = L.foldl (stepG g') acc := by
  intro L
  induction L with
  | nil => intro acc _; rfl
  | cons c L ih =>
    intro acc h
    rw [List.foldl_cons, List.foldl_cons]
    rw [show stepG g acc c = stepG g' acc c by
      unfold stepG; rw [h c (List.mem_cons_self c L)]]
    exact ih _ (fun c' hc' => h c' (List.mem_cons_of_mem _ hc'))

theorem sumUtil_congr (um um' : List (String × List (Int × ℚ)))
    (name : String) (h : sget um name = sget um' name)
    (dist : List (Int × ℚ)) : sumUtil um name dist = sumUtil um' name dist := by
  unfold sumUtil
  rw [show sumUtilStep um name = sumUtilStep um' name by
    funext acc vp; unfold sumUtilStep; rw [h]]

theorem comboUtil_same_first_entry (dvs : List String) (fk : String)
    (t : List (Int × ℚ)) (rest rest' : List (String × List (Int × ℚ)))
    (names : List String) (perms : List (List Int))
    (pp : Dict → List (List (Int × ℚ))) (e : Dict) (ui : Nat) (c : List Int)
    (hn : names[ui]? = some fk) :
    comboUtil (AdEngine.mk dvs ((fk, t) :: rest) names perms pp) e ui c =
    comboUtil (AdEngine.mk dvs ((fk, t) :: rest') names perms pp) e ui c := by
  unfold comboUtil
  simp only
  cases actionsOf dvs c with
  | none => rfl
  | some acts =>
    simp only
    cases (pp (combinedEvidence acts e))[ui]? with
    | none => rfl
    | some dist =>
      simp only [hn]
      rw [sumUtil_congr ((fk, t) :: rest) ((fk, t) :: rest') fk
        (by simp [sget]) dist]

/-- C10: `decide` reads only the first utility-map entry — the index of its
key in the schema and its value table; engines differing only in the later
utility-map entries return the same result on every evidence. -/
theorem decide_uses_only_first_utility_entry (dvs : List String) (fk : String)
    (t : List (Int × ℚ)) (rest rest' : List (String × List (Int × ℚ)))
    (names : List String) (perms : List (List Int))
    (pp : Dict → List (List (Int × ℚ))) (e : Dict) :
    (AdEngine.mk dvs ((fk, t) :: rest) names perms pp).decide e =
    (AdEngine.mk dvs ((fk, t) :: rest') names perms pp).decide e := by
  unfold AdEngine.decide
  simp only [List.head?_cons]
  cases hfi : List.findIdx? (fun n => n = (fk, t).1) names with
  | none => simp only [hfi]
  | some ui =>
    simp only [hfi]
    obtain ⟨a, ha, hpa⟩ := findIdx?_getElem _ _ _ hfi
    have hn : names[ui]? = some fk := by
      rw [ha, of_decide_eq_true hpa]
    rw [foldl_stepG_congr _ _ _ _ (fun c _ =>
      comboUtil_same_first_entry dvs fk t rest rest' names perms pp e ui c hn)]

theorem zget_append_extra (v : Int) (s : ℚ) :
    ∀ (table : List (Int × ℚ)) (x : Int), x ≠ v →
    zget (table ++ [(v, s)]) x = zget table x := by
  intro table
  induction table with
  | nil =>
    intro x hx
    simp only [List.nil_append, zget]
    rw [if_neg (fun hc => hx hc.symm)]
  | cons p rest ih =>
    intro x hx
    obtain ⟨k, w⟩ := p
    simp only [List.cons_append, zget]
    by_cases h : k = x
    · rw [if_pos h, if_pos h]
    · rw [if_neg h, if_neg h]
      exact ih x hx

theorem foldl_sumUtilStep_extra (fk : String) (table : List (Int × ℚ))
    (rest : List (String × List (Int × ℚ))) (v : Int) (s : ℚ) :
    ∀ (dist : List (Int × ℚ)) (acc : Option ℚ), v ∉ List.map Prod.fst dist →
    dist.foldl (sumUtilStep ((fk, table ++ [(v, s)]) :: rest) fk) acc =
    dist.foldl (sumUtilStep ((fk, table) :: rest) fk) acc := by
  intro dist
  induction dist with
  | nil => intro acc _; rfl
  | cons vp dist ih =>
    intro acc hv
    rw [List.map_cons] at hv
    simp only [List.mem_cons, not_or] at hv
    rw [List.foldl_cons, List.foldl_cons]
    rw [show sumUtilStep ((fk, table ++ [(v, s)]) :: rest) fk acc vp =
        sumUtilStep ((fk, table) :: rest) fk acc vp by
      unfold sumUtilStep
      rw [show sget ((fk, table ++ [(v, s)]) :: rest) fk
            = some (table ++ [(v, s)]) by simp [sget],
        show sget ((fk, table) :: rest) fk = some table by simp [sget]]
      cases acc with
      | none => rfl
      | some s0 =>
        simp only
        rw [zget_append_extra v s table vp.1 (fun hc => hv.1 hc.symm)]]
    exact ih _ hv.2

theorem comboUtil_ignores_extra_value (dvs : List String) (fk : String)
    (table : List (Int × ℚ)) (rest : List (String × List (Int × ℚ)))
    (names : List String) (perms : List (List Int))
    (pp : Dict → List (List (Int × ℚ))) (e : Dict) (v : Int) (s : ℚ)
    (ui : Nat) (c : List Int) (hn : names[ui]? = some fk)
    (hv : ∀ dist, (pp (combinedEvidence (actionsList dvs c) e))[ui]?
      = some dist → v ∉ List.map Prod.fst dist) :
    comboUtil (AdEngine.mk dvs ((fk, table ++ [(v, s)]) :: rest)
      names perms pp) e ui c =
    comboUtil (AdEngine.mk dvs ((fk, table) :: rest) names perms pp) e ui c := by
  unfold comboUtil
  simp only
  cases ha : actionsOf dvs c with
  | none => rfl
  | some acts =>
    simp only
    have hacts : acts = actionsList dvs c := actionsOf_eq_some dvs c acts ha
    cases hd : (pp (combinedEvidence acts e))[ui]? with
    | none => rfl
    | some dist =>
      simp only [hn]
      unfold sumUtil
      rw [foldl_sumUtilStep_extra fk table rest v s dist (some 0)
        (hv dist (by rw [← hacts]; exact hd))]

/-- C8, counterexample: the utility map of `engExtra` scores value 99,
outside the utility parent's learned domain `[0]`; `decide` neither raises a
DomainMismatchError (none exists in the code) nor any other failure — it
returns an assignment, silently ignoring the out-of-domain entry. -/
theorem no_domain_mismatch_error_cex :
    AdEngine.init ["D", "S"] [[0, 0], [1, 0]] ["D"]
      [("S", [(0, 1), (99, 1000)])] ppTie = some engExtra ∧
    npUnique (List.filterMap (fun r => r[1]?) [[0, 0], [1, 0]]) = [0] ∧
    ((99 : Int) ∉ [(0 : Int)]) ∧
    engExtra.decide [] = some (some [("D", 0)]) :=
  ⟨rfl, by decide, by decide,
   by simp [AdEngine.decide, engExtra, ppTie, comboUtil, combinedEvidence,
     dupdate, actionsOf, actionsList, dinsert, sumUtil, sumUtilStep, sget,
     zget, stepG, prodList, List.findIdx?, List.foldl, List.zip,
     List.zipWith, List.flatMap]⟩

/-- C8 (amended): the code defines no DomainMismatchError; a utility-map
entry for a value outside the utility parent's posterior support is not
rejected but silently ignored — `decide` returns the same result with or
without the extra entry, for every evidence mapping. -/
theorem decide_ignores_out_of_domain_utility_value (dvs : List String)
    (fk : String) (table : List (Int × ℚ))
    (rest : List (String × List (Int × ℚ))) (names : List String)
    (perms : List (List Int)) (pp : Dict → List (List (Int × ℚ))) (e : Dict)
    (v : Int) (s : ℚ)
    (hv : ∀ ui, List.findIdx? (fun n => n = fk) names = some ui →
      ∀ c ∈ prodList perms, ∀ dist,
      (pp (combinedEvidence (actionsList dvs c) e))[ui]? = some dist →
      v ∉ List.map Prod.fst dist) :
    (AdEngine.mk dvs ((fk, table ++ [(v, s)]) :: rest) names perms pp).decide e
      = (AdEngine.mk dvs ((fk, table) :: rest) names perms pp).decide e := by
  unfold AdEngine.decide
  simp only [List.head?_cons]
  cases hfi : List.findIdx? (fun n => n = (fk, table ++ [(v, s)]).1) names with
  | none => simp only [hfi]
  | some ui =>
    simp only [hfi]
    obtain ⟨a, ha, hpa⟩ := findIdx?_getElem _ _ _ hfi
    have hn : names[ui]? = some fk := by
      rw [ha, of_decide_eq_true hpa]
    rw [foldl_stepG_congr _ _ _ _ (fun c hc =>
      comboUtil_ignores_extra_value dvs fk table rest names perms pp e v s ui
        c hn (hv ui hfi c hc))]

/-- C8 (amended), witness: dropping the out-of-domain entry `99 ↦ 1000`
leaves the concrete engine's decision unchanged. -/
theorem decide_ignores_out_of_domain_utility_value_witness :
    engExtra.decide [] = engTie.decide [] :=
  decide_ignores_out_of_domain_utility_value ["D"] "S" [(0, 1)] []
    ["D", "S"] [[0, 1]] ppTie [] 99 1000
    (fun ui hui c hc dist hd => by
      have h1 : (1 : Nat) = ui := Option.some.inj hui
      rw [show (ppTie (combinedEvidence (actionsList ["D"] c) []))[ui]?
          = some [((0 : Int), (1 : ℚ))] from by rw [← h1]; rfl] at hd
      rw [← Option.some.inj hd]
      decide)

theorem cptProb_nonneg (m : NetModel) (j : Nat) (a : List Int) :
    0 ≤ cptProb m j a := by
  unfold cptProb
  exact div_nonneg (Nat.cast_nonneg _) (Nat.cast_nonneg _)

theorem jointWeight_nonneg (m : NetModel) (a : List Int) :
    0 ≤ jointWeight m a := by
  unfold jointWeight
  apply List.prod_nonneg
  intro q hq
  rw [List.mem_map] at hq
  obtain ⟨j, _, hj⟩ := hq
  rw [← hj]
  exact cptProb_nonneg m j a

theorem mem_prodList :
    ∀ (ds : List (List Int)) (a : List Int), a ∈ prodList ds →
    ∀ (j : Nat) (dj : List Int), ds[j]? = some dj → ∃ x ∈ dj, a[j]? = some x := by
  intro ds
  induction ds with
  | nil =>
    intro a _ j dj hj
    simp at hj
  | cons d ds ih =>
    intro a ha j dj hj
    simp only [prodList, List.mem_flatMap, List.mem_map] at ha
    obtain ⟨x, hx, t, ht, hat⟩ := ha
    cases j with
    | zero =>
      rw [List.getElem?_cons_zero, Option.some.injEq] at hj
      subst hj
      exact ⟨x, hx, by rw [← hat]; simp⟩
    | succ k =>
      rw [List.getElem?_cons_succ] at hj
      obtain ⟨y, hy, hty⟩ := ih t ht k dj hj
      refine ⟨y, hy, ?_⟩
      rw [← hat, List.getElem?_cons_succ]
      exact hty

theorem sum_map_zero_list (dom : List Int) :
    (dom.map (fun _ => (0 : ℚ))).sum = 0 := by
  induction dom with
  | nil => rfl
  | cons y dom ih => rw [List.map_cons, List.sum_cons, ih, add_zero]

theorem sum_map_div (dom : List Int) (f : Int → ℚ) (Q : ℚ) :
    (dom.map (fun x => f x / Q)).sum = (dom.map f).sum / Q := by
  induction dom with
  | nil => simp
  | cons y dom ih =>
    rw [List.map_cons, List.map_cons, List.sum_cons, List.sum_cons, ih,
      add_div]

theorem sum_map_ite_eq (c : ℚ) :
    ∀ (dom : List Int) (f : Int → ℚ) (x0 : Int), dom.Nodup → x0 ∈ dom →
    (dom.map (fun x => if x = x0 then c + f x else f x)).sum
      = c + (dom.map f).sum := by
  intro dom
  induction dom with
  | nil => intro f x0 _ h; cases h
  | cons y dom ih =>
    intro f x0 hnd hx
    rw [List.nodup_cons] at hnd
    rw [List.map_cons, List.map_cons, List.sum_cons, List.sum_cons]
    rcases List.mem_cons.1 hx with h1 | h1
    · rw [if_pos h1.symm]
      rw [List.map_congr_left (fun x hxd =>
        if_neg (fun hc : x = x0 => hnd.1 (by rw [← h1, ← hc]; exact hxd)))]
      ring
    · rw [if_neg (fun hc : y = x0 => hnd.1 (by rw [hc]; exact h1)),
        ih f x0 hnd.2 h1]
      ring

theorem sum_filter_partition (w : List Int → ℚ) (j : Nat) :
    ∀ (l : List (List Int)) (dom : List Int), dom.Nodup →
    (∀ a ∈ l, ∃ x ∈ dom, a[j]? = some x) →
    (dom.map (fun x =>
      ((l.filter (fun a => decide (a[j]? = some x))).map w).sum)).sum
      = (l.map w).sum := by
  intro l
  induction l with
  | nil =>
    intro dom _ _
    simp only [List.filter_nil, List.map_nil, List.sum_nil]
    exact sum_map_zero_list dom
  | cons a l ih =>
    intro dom hnd hmem
    obtain ⟨x0, hx0, hax0⟩ := hmem a (List.mem_cons_self a l)
    rw [List.map_cons, List.sum_cons]
    rw [List.map_congr_left (fun x hx => show
      ((List.filter (fun a' => decide (a'[j]? = some x)) (a :: l)).map w).sum
        = if x = x0
          then w a +
            ((l.filter (fun a' => decide (a'[j]? = some x))).map w).sum
          else ((l.filter (fun a' => decide (a'[j]? = some x))).map w).sum
      from by
      by_cases hxx : x = x0
      · rw [if_pos hxx, hxx, List.filter_cons,
          if_pos (by rw [hax0]; simp), List.map_cons, List.sum_cons]
      · rw [if_neg hxx, List.filter_cons,
          if_neg (by rw [hax0]; simpa using fun hc => hxx hc.symm)])]
    rw [sum_map_ite_eq (w a) dom _ x0 hnd hx0,
      ih dom hnd (fun a' ha' => hmem a' (List.mem_cons_of_mem a ha'))]

/-- C6 (spec-modelled): whenever the evidence has nonzero prior weight under
the learned model, the exact-inference posterior of any variable is a proper
probability distribution over that variable's domain: non-negative values
summing to 1. -/
theorem posterior_proper (m : NetModel) (e : Dict) (j : Nat) (dj : List Int)
    (hdj : m.domains[j]? = some dj) (hnd : dj.Nodup)
    (hpos : 0 < queryWeight m e) :
    (∀ x ∈ dj, 0 ≤ posterior m e j x) ∧
    (dj.map (posterior m e j)).sum = 1 := by
  constructor
  · intro x _
    unfold posterior
    apply div_nonneg
    · apply List.sum_nonneg
      intro q hq
      rw [List.mem_map] at hq
      obtain ⟨a, _, ha⟩ := hq
      rw [← ha]
      exact jointWeight_nonneg m a
    · exact le_of_lt hpos
  · unfold posterior
    rw [sum_map_div dj _ (queryWeight m e)]
    rw [sum_filter_partition (jointWeight m) j _ dj hnd
      (fun a ha => mem_prodList m.domains a (List.mem_filter.1 ha).1 j dj
        hdj)]
    exact div_self (ne_of_gt hpos)

/-- C6 (spec-modelled), witness: the posterior of the single variable under
empty evidence is a proper distribution. -/
theorem posterior_proper_witness :
    (0 < queryWeight netSimple []) ∧
    ((∀ x ∈ [(0 : Int)], 0 ≤ posterior netSimple [] 0 x) ∧
     (([(0 : Int)]).map (posterior netSimple [] 0)).sum = 1) :=
  ⟨by simp [queryWeight, netSimple, prodList, consistentE, jointWeight,
     cptProb, List.filter, List.range_succ],
   posterior_proper netSimple [] 0 [0] rfl (by decide)
     (by simp [queryWeight, netSimple, prodList, consistentE, jointWeight,
       cptProb, List.filter, List.range_succ])⟩
